import Mathlib

/-!
# Shallow embedding of the morsewave library (src/lib.rs)

This file embeds the Morse code table, the codec (`MorseCodec::encode`,
`MorseCodec::decode`, `MorseWave::validate_morse`) and the audio scheduler
(`AudioPlayer::new`, `AudioPlayer::play_morse`, `AudioPlayer::play_tone`,
`AudioPlayer::set_wpm`) and proves the specification's claims about them.

Modelling conventions:

* Rust `f64` values are modelled as exact rationals `ℚ`.  Every concrete
  number appearing in the claims (`1200 / 20 = 60`, `60 / 1000`, `180`,
  `3 / 25`, …) is exactly representable in binary floating point, so the
  rational model agrees with the `f64` computation on them.
* The two `HashMap`s that `MorseCodec::new` builds by inserting the canonical
  pair list in order are modelled by first-match lookup (`List.find?`) on that
  list.  The keys and the codes of the list are pairwise distinct (proved
  below as `pairs_keys_nodup` / `pairs_codes_nodup`), so first-match lookup
  coincides with the insert-in-order `HashMap` semantics.
* `AudioContext` is the external tone backend: its construction result is a
  parameter of `AudioPlayer.new`, and `context.current_time()` is the
  `current_time` parameter of `play_morse`.  What `play_tone` does with an
  `(start_time, duration)` pair — start the oscillator at `start_time`
  seconds and stop it at `start_time + duration / 1000` seconds — is modelled
  by `play_tone` returning that pair of instants.
-/

namespace Morsewave

/-- The canonical `(character, code)` list from `MorseCodec::new`
(src/lib.rs lines 84–139), in source order. -/
def pairs : List (Char × String) :=
  [ ('A', ".-"),
    ('B', "-..."),
    ('C', "-.-."),
    ('D', "-.."),
    ('E', "."),
    ('F', "..-."),
    ('G', "--."),
    ('H', "...."),
    ('I', ".."),
    ('J', ".---"),
    ('K', "-.-"),
    ('L', ".-.."),
    ('M', "--"),
    ('N', "-."),
    ('O', "---"),
    ('P', ".--."),
    ('Q', "--.-"),
    ('R', ".-."),
    ('S', "..."),
    ('T', "-"),
    ('U', "..-"),
    ('V', "...-"),
    ('W', ".--"),
    ('X', "-..-"),
    ('Y', "-.--"),
    ('Z', "--.."),
    ('0', "-----"),
    ('1', ".----"),
    ('2', "..---"),
    ('3', "...--"),
    ('4', "....-"),
    ('5', "....."),
    ('6', "-...."),
    ('7', "--..."),
    ('8', "---.."),
    ('9', "----."),
    ('.', ".-.-.-"),
    (',', "--..--"),
    ('?', "..--.."),
    ('!', "-.-.--"),
    ('/', "-..-."),
    ('(', "-.--."),
    (')', "-.--.-"),
    ('&', ".-..."),
    (':', "---..."),
    (';', "-.-.-."),
    ('=', "-...-"),
    ('+', ".-.-."),
    ('-', "-....-"),
    ('_', "..--.-"),
    ('"', ".-..-."),
    ('$', "...-..-"),
    ('@', ".--.-."),
    (' ', "/") ]

/-- `self.encode_map.get(&ch)`: character → code lookup.  The `HashMap` is
modelled by first-match lookup on `pairs`; the keys are pairwise distinct
(`pairs_keys_nodup`), so this agrees with insert-in-order map semantics. -/
def encode_map_get (ch : Char) : Option String :=
  (pairs.find? fun p => p.1 == ch).map fun p => p.2

/-- `self.decode_map.get(code)`: code → character lookup. -/
def decode_map_get (code : String) : Option Char :=
  (pairs.find? fun p => p.2 == code).map fun p => p.1

/-- Rust `str::to_uppercase`, per character.  All keys of the table are
ASCII, on which per-character uppercasing agrees with Rust's Unicode
uppercasing. -/
def to_uppercase (s : String) : String :=
  ⟨s.data.map Char.toUpper⟩

/-- `MorseCodec::encode` (src/lib.rs lines 175–182): upper-case the input,
keep the codes of mappable characters (`filter_map`), join with single
spaces. -/
def encode (text : String) : String :=
  String.intercalate " " ((to_uppercase text).data.filterMap encode_map_get)

/-- Rust `str::split(sep)` on a character list: split at every occurrence of
`sep`, keeping empty tokens (so the result is always non-empty and
`"a  b"` yields `["a", "", "b"]`, as in Rust). -/
def splitOnChar (sep : Char) : List Char → List (List Char)
  | [] => [[]]
  | c :: cs =>
    match splitOnChar sep cs with
    | r :: rs => if c = sep then [] :: r :: rs else (c :: r) :: rs
    | [] => [[]]

/-- The tokens `morse.split(' ')` iterates over in `MorseCodec::decode`. -/
def split_space (morse : String) : List String :=
  (splitOnChar ' ' morse.data).map fun l => ⟨l⟩

/-- `MorseCodec::decode` (src/lib.rs lines 204–209): split on single spaces,
keep the characters of mappable tokens (`filter_map`), collect. -/
def decode (morse : String) : String :=
  ⟨(split_space morse).filterMap decode_map_get⟩

/-- Rust `str::split_whitespace` on a character list: maximal runs of
non-whitespace characters, empty runs discarded.  `acc` holds the current
run, reversed. -/
def splitWhitespaceAux : List Char → List Char → List (List Char)
  | [], [] => []
  | [], acc => [acc.reverse]
  | c :: cs, acc =>
    if c.isWhitespace then
      (if acc.isEmpty then [] else [acc.reverse]) ++ splitWhitespaceAux cs []
    else
      splitWhitespaceAux cs (c :: acc)

/-- Rust `str::split_whitespace`. -/
def split_whitespace (s : String) : List String :=
  (splitWhitespaceAux s.data []).map fun l => ⟨l⟩

/-- `MorseWave::validate_morse` (src/lib.rs lines 287–291): every
whitespace-delimited token consists solely of `.`, `-`, `/`. -/
def validate_morse (morse : String) : Bool :=
  (split_whitespace morse).all fun code =>
    code.data.all fun c => c == '.' || c == '-' || c == '/'

/-- `AudioPlayer` (src/lib.rs lines 305–309).  The `AudioContext` field is
the external tone backend and carries no scheduling state; only
`dot_duration` (milliseconds) is modelled. -/
structure AudioPlayer where
  dot_duration : ℚ
deriving DecidableEq, Repr

/-- `AudioPlayer::new` (src/lib.rs lines 327–335).  `audioContext` is the
result of `AudioContext::new()` (the external backend); its error is
propagated by `?`.  The speed is used without any validation:
`dot_duration = 1200.0 / wpm`. -/
def AudioPlayer.new (audioContext : Except String Unit) (wpm : ℚ) :
    Except String AudioPlayer :=
  match audioContext with
  | .error e => .error e
  | .ok _ => .ok { dot_duration := 1200 / wpm }

/-- `AudioPlayer::set_wpm` (src/lib.rs lines 421–423): unconditionally sets
`dot_duration = 1200.0 / wpm`. -/
def AudioPlayer.set_wpm (_p : AudioPlayer) (wpm : ℚ) : AudioPlayer :=
  { dot_duration := 1200 / wpm }

/-- One `(start_time, duration)` argument pair handed to
`AudioPlayer::play_tone`: `start_time` is in the `AudioContext` clock's
seconds, `duration` in milliseconds. -/
structure ToneCall where
  start_time : ℚ
  duration : ℚ
deriving DecidableEq, Repr

/-- The oscillator schedule produced by `AudioPlayer::play_tone`
(src/lib.rs lines 395–414): `oscillator.start_with_when(start_time)` and
`oscillator.stop_with_when(start_time + duration / 1000.0)`, both in the
clock's seconds. -/
structure OscSchedule where
  start : ℚ
  stop : ℚ
deriving DecidableEq, Repr

/-- `AudioPlayer::play_tone`, reduced to its timing content: the oscillator
sounds from `start_time` to `start_time + duration / 1000` seconds. -/
def play_tone (call : ToneCall) : OscSchedule :=
  { start := call.start_time, stop := call.start_time + call.duration / 1000 }

/-- The loop body of `AudioPlayer::play_morse` (src/lib.rs lines 359–379):
walk the characters, returning the list of `play_tone` calls made and the
final value of `time`.  `dd` is `self.dot_duration`. -/
def playMorseGo (dd : ℚ) : List Char → ℚ → List ToneCall × ℚ
  | [], time => ([], time)
  | ch :: rest, time =>
    if ch = '.' then
      let r := playMorseGo dd rest (time + dd / 1000 + dd / 1000)
      (⟨time, dd⟩ :: r.1, r.2)
    else if ch = '-' then
      let r := playMorseGo dd rest (time + dd * 3 / 1000 + dd / 1000)
      (⟨time, dd * 3⟩ :: r.1, r.2)
    else if ch = ' ' then
      playMorseGo dd rest (time + dd * 3 / 1000)
    else if ch = '/' then
      playMorseGo dd rest (time + dd * 7 / 1000)
    else
      playMorseGo dd rest time

/-- `AudioPlayer::play_morse` (src/lib.rs lines 356–382): the sequence of
`(start_time, duration)` pairs handed to `play_tone`.  `current_time` is
the value of `self.context.current_time()` (seconds). -/
def play_morse (p : AudioPlayer) (morse : String) (current_time : ℚ) :
    List ToneCall :=
  (playMorseGo p.dot_duration morse.data current_time).1

/-- The value of `time` after the `play_morse` loop finishes. -/
def play_morse_clock (p : AudioPlayer) (morse : String) (current_time : ℚ) :
    ℚ :=
  (playMorseGo p.dot_duration morse.data current_time).2

/-- A `play_tone` call as the tone interval it realizes, expressed in
milliseconds: `(oscillator start × 1000, (stop − start) × 1000)`, i.e. the
schedule in the unit in which durations are given. -/
def toneIntervalMs (call : ToneCall) : ℚ × ℚ :=
  ((play_tone call).start * 1000, ((play_tone call).stop - (play_tone call).start) * 1000)

/-- The realized schedule of `play_morse` in milliseconds. -/
def eventsMs (p : AudioPlayer) (morse : String) (current_time : ℚ) :
    List (ℚ × ℚ) :=
  (play_morse p morse current_time).map toneIntervalMs

theorem playMorseGo_nil (dd t : ℚ) : playMorseGo dd [] t = ([], t) := rfl

theorem playMorseGo_dot (dd t : ℚ) (cs : List Char) :
    playMorseGo dd ('.' :: cs) t =
      ((⟨t, dd⟩ : ToneCall) :: (playMorseGo dd cs (t + dd / 1000 + dd / 1000)).1,
        (playMorseGo dd cs (t + dd / 1000 + dd / 1000)).2) := rfl

theorem playMorseGo_dash (dd t : ℚ) (cs : List Char) :
    playMorseGo dd ('-' :: cs) t =
      ((⟨t, dd * 3⟩ : ToneCall) :: (playMorseGo dd cs (t + dd * 3 / 1000 + dd / 1000)).1,
        (playMorseGo dd cs (t + dd * 3 / 1000 + dd / 1000)).2) := rfl

theorem playMorseGo_space (dd t : ℚ) (cs : List Char) :
    playMorseGo dd (' ' :: cs) t = playMorseGo dd cs (t + dd * 3 / 1000) := rfl

theorem playMorseGo_slash (dd t : ℚ) (cs : List Char) :
    playMorseGo dd ('/' :: cs) t = playMorseGo dd cs (t + dd * 7 / 1000) := rfl

theorem playMorseGo_other (dd t : ℚ) (ch : Char) (cs : List Char)
    (h1 : ch ≠ '.') (h2 : ch ≠ '-') (h3 : ch ≠ ' ') (h4 : ch ≠ '/') :
    playMorseGo dd (ch :: cs) t = playMorseGo dd cs t := by
  simp [playMorseGo, h1, h2, h3, h4]

/-- Proof-side view of joining character lists with a single space between
consecutive entries; `String.intercalate " "` computes this on the `data`
of its arguments (`intercalate_data` below). -/
def joinSep : List (List Char) → List Char
  | [] => []
  | [x] => x
  | x :: y :: t => x ++ ' ' :: joinSep (y :: t)

/-- The table's characters are pairwise distinct, so first-match lookup
models the `HashMap` built by inserting `pairs` in order. -/
theorem pairs_keys_nodup : (pairs.map Prod.fst).Nodup := by decide

/-- The table's codes are pairwise distinct. -/
theorem pairs_codes_nodup : (pairs.map Prod.snd).Nodup := by decide

/-- C1: the claim says constructing an `AudioPlayer` or updating it with a
non-positive `wpm` fails fast with an error.  The code performs no check:
`AudioPlayer::new(-10)` succeeds (the only fallible step is the external
`AudioContext::new()`) and stores the negative dot duration
`1200 / (-10) = -120`; `set_wpm(-10)` likewise silently stores `-120`; and
`AudioPlayer::new(0)` also succeeds (in `f64` arithmetic it stores the
infinite dot duration `1200.0 / 0.0 = +∞`; the exact-rational model only
records that construction succeeds there). -/
theorem c1_nonpositive_wpm_accepted :
    AudioPlayer.new (Except.ok ()) (-10) = Except.ok ⟨-120⟩ ∧
    ((-120 : ℚ) < 0) ∧
    AudioPlayer.set_wpm ⟨60⟩ (-10) = ⟨-120⟩ ∧
    (∃ p : AudioPlayer, AudioPlayer.new (Except.ok ()) 0 = Except.ok p) :=
  ⟨by norm_num [AudioPlayer.new], by norm_num,
   by norm_num [AudioPlayer.set_wpm], ⟨_, rfl⟩⟩

/-- C2, counterexample: the canonical list of `MorseCodec::new` does not
have 56 entries. -/
theorem c2_counterexample : pairs.length ≠ 56 := by decide

/-- C2, amended: `MorseCodec::new` populates both maps from one canonical
list of exactly 54 entries — 26 letters, 10 digits, 17 punctuation marks and
1 word-separator entry — with pairwise-distinct characters and
pairwise-distinct codes, and both lookup directions map every listed pair
to each other. -/
theorem c2_table_has_54_entries :
    pairs.length = 54 ∧
    (pairs.filter fun p => p.1.isAlpha).length = 26 ∧
    (pairs.filter fun p => p.1.isDigit).length = 10 ∧
    (pairs.filter fun p => !p.1.isAlpha && !p.1.isDigit && p.1 != ' ').length = 17 ∧
    (pairs.filter fun p => p.1 == ' ').length = 1 ∧
    (pairs.map Prod.fst).Nodup ∧
    (pairs.map Prod.snd).Nodup ∧
    (∀ p ∈ pairs, encode_map_get p.1 = some p.2 ∧ decode_map_get p.2 = some p.1) := by
  decide

/-- C2, witness for the amended claim at the pair `('A', ".-")`. -/
theorem c2_witness : encode_map_get 'A' = some ".-" ∧ decode_map_get ".-" = some 'A' :=
  c2_table_has_54_entries.2.2.2.2.2.2.2 ('A', ".-") (by decide)

/-- C3: for every character of the canonical table (54 entries, the
space/word-separator included), `decode (encode (upper c)) = upper c`;
in particular `encode "SOS" = "... --- ..."` and decoding that yields
`"SOS"`. -/
theorem c3_roundtrip :
    (∀ p ∈ pairs,
      decode (encode (String.singleton (Char.toUpper p.1))) =
        String.singleton (Char.toUpper p.1)) ∧
    encode "SOS" = "... --- ..." ∧
    decode "... --- ..." = "SOS" := by
  refine ⟨by decide, by decide, by decide⟩

/-- C3, witness at `'S'`. -/
theorem c3_witness :
    decode (encode (String.singleton (Char.toUpper 'S'))) =
      String.singleton (Char.toUpper 'S') :=
  c3_roundtrip.1 ('S', "...") (by decide)

/-- C4: with `wpm = 20` the dot duration is `60` ms; from start time 0 the
realized schedule (milliseconds) of `"."` is one tone `(0, 60)`, of `"-"`
one tone `(0, 180)`, and of `".-"` the tones `(0, 60)` and `(120, 180)` —
the dash starting one dot plus one inter-element gap after the start.  In
general a dot advances the clock by 2 dot units, a dash by 4, a space by 3,
a slash by 7, and any other character emits nothing and leaves the clock
unchanged (the clock runs in seconds, so one dot unit is `dd / 1000`
seconds for a dot duration of `dd` milliseconds). -/
theorem c4_timing_at_20wpm :
    AudioPlayer.new (Except.ok ()) 20 = Except.ok ⟨60⟩ ∧
    eventsMs ⟨60⟩ "." 0 = [(0, 60)] ∧
    eventsMs ⟨60⟩ "-" 0 = [(0, 180)] ∧
    eventsMs ⟨60⟩ ".-" 0 = [(0, 60), (120, 180)] ∧
    (∀ dd t : ℚ, play_morse_clock ⟨dd⟩ "." t = t + 2 * (dd / 1000)) ∧
    (∀ dd t : ℚ, play_morse_clock ⟨dd⟩ "-" t = t + 4 * (dd / 1000)) ∧
    (∀ dd t : ℚ, play_morse_clock ⟨dd⟩ " " t = t + 3 * (dd / 1000)) ∧
    (∀ dd t : ℚ, play_morse_clock ⟨dd⟩ "/" t = t + 7 * (dd / 1000)) ∧
    (∀ dd t : ℚ, ∀ ch : Char, ch ≠ '.' → ch ≠ '-' → ch ≠ ' ' → ch ≠ '/' →
      play_morse ⟨dd⟩ (String.singleton ch) t = [] ∧
      play_morse_clock ⟨dd⟩ (String.singleton ch) t = t) := by
  refine ⟨by norm_num [AudioPlayer.new], ?_, ?_, ?_, ?_, ?_, ?_, ?_, ?_⟩
  · show List.map toneIntervalMs (playMorseGo 60 ['.'] 0).1 = _
    simp only [playMorseGo_dot, playMorseGo_nil]
    norm_num [toneIntervalMs, play_tone]
  · show List.map toneIntervalMs (playMorseGo 60 ['-'] 0).1 = _
    simp only [playMorseGo_dash, playMorseGo_nil]
    norm_num [toneIntervalMs, play_tone]
  · show List.map toneIntervalMs (playMorseGo 60 ['.', '-'] 0).1 = _
    simp only [playMorseGo_dot, playMorseGo_dash, playMorseGo_nil]
    norm_num [toneIntervalMs, play_tone]
  · intro dd t
    show (playMorseGo dd ['.'] t).2 = _
    simp only [playMorseGo_dot, playMorseGo_nil]
    ring
  · intro dd t
    show (playMorseGo dd ['-'] t).2 = _
    simp only [playMorseGo_dash, playMorseGo_nil]
    ring
  · intro dd t
    show (playMorseGo dd [' '] t).2 = _
    simp only [playMorseGo_space, playMorseGo_nil]
    ring
  · intro dd t
    show (playMorseGo dd ['/'] t).2 = _
    simp only [playMorseGo_slash, playMorseGo_nil]
    ring
  · intro dd t ch h1 h2 h3 h4
    constructor
    · show (playMorseGo dd [ch] t).1 = []
      rw [playMorseGo_other dd t ch [] h1 h2 h3 h4, playMorseGo_nil]
    · show (playMorseGo dd [ch] t).2 = t
      rw [playMorseGo_other dd t ch [] h1 h2 h3 h4, playMorseGo_nil]

/-- C4, witness for the unmapped-character clause at `'x'`. -/
theorem c4_witness :
    play_morse ⟨60⟩ (String.singleton 'x') 0 = [] ∧
    play_morse_clock ⟨60⟩ (String.singleton 'x') 0 = 0 :=
  c4_timing_at_20wpm.2.2.2.2.2.2.2.2 60 0 'x'
    (by decide) (by decide) (by decide) (by decide)

/-- Invariants of the `play_morse` loop for a positive dot duration: every
emitted start time is at least the time the loop entered with, the emitted
start times are strictly increasing, and the clock never decreases. -/
theorem playMorseGo_props (dd : ℚ) (hdd : 0 < dd) (cs : List Char) :
    ∀ t : ℚ,
      (∀ e ∈ (playMorseGo dd cs t).1, t ≤ e.start_time) ∧
      ((playMorseGo dd cs t).1.Pairwise fun a b => a.start_time < b.start_time) ∧
      t ≤ (playMorseGo dd cs t).2 := by
  induction cs with
  | nil =>
    intro t
    simp [playMorseGo_nil]
  | cons ch rest ih =>
    intro t
    by_cases h1 : ch = '.'
    · subst h1
      obtain ⟨ihs, ihp, ihc⟩ := ih (t + dd / 1000 + dd / 1000)
      have ht : t < t + dd / 1000 + dd / 1000 := by linarith
      rw [playMorseGo_dot]
      refine ⟨?_, ?_, le_trans ht.le ihc⟩
      · intro e he
        rcases List.mem_cons.1 he with rfl | he
        · exact le_refl t
        · exact ht.le.trans (ihs e he)
      · exact List.pairwise_cons.2 ⟨fun e he => lt_of_lt_of_le ht (ihs e he), ihp⟩
    · by_cases h2 : ch = '-'
      · subst h2
        obtain ⟨ihs, ihp, ihc⟩ := ih (t + dd * 3 / 1000 + dd / 1000)
        have ht : t < t + dd * 3 / 1000 + dd / 1000 := by linarith
        rw [playMorseGo_dash]
        refine ⟨?_, ?_, le_trans ht.le ihc⟩
        · intro e he
          rcases List.mem_cons.1 he with rfl | he
          · exact le_refl t
          · exact ht.le.trans (ihs e he)
        · exact List.pairwise_cons.2 ⟨fun e he => lt_of_lt_of_le ht (ihs e he), ihp⟩
      · by_cases h3 : ch = ' '
        · subst h3
          obtain ⟨ihs, ihp, ihc⟩ := ih (t + dd * 3 / 1000)
          have ht : t ≤ t + dd * 3 / 1000 := by linarith
          rw [playMorseGo_space]
          exact ⟨fun e he => ht.trans (ihs e he), ihp, ht.trans ihc⟩
        · by_cases h4 : ch = '/'
          · subst h4
            obtain ⟨ihs, ihp, ihc⟩ := ih (t + dd * 7 / 1000)
            have ht : t ≤ t + dd * 7 / 1000 := by linarith
            rw [playMorseGo_slash]
            exact ⟨fun e he => ht.trans (ihs e he), ihp, ht.trans ihc⟩
          · rw [playMorseGo_other dd t ch rest h1 h2 h3 h4]
            exact ih t

/-- Every tone the `play_morse` loop emits lasts one dot duration or three
of them. -/
theorem playMorseGo_durations (dd : ℚ) (cs : List Char) :
    ∀ t : ℚ, ∀ e ∈ (playMorseGo dd cs t).1,
      e.duration = dd ∨ e.duration = dd * 3 := by
  induction cs with
  | nil =>
    intro t e he
    simp [playMorseGo_nil] at he
  | cons ch rest ih =>
    intro t e he
    by_cases h1 : ch = '.'
    · subst h1
      rw [playMorseGo_dot] at he
      rcases List.mem_cons.1 he with rfl | he
      · exact Or.inl rfl
      · exact ih _ e he
    · by_cases h2 : ch = '-'
      · subst h2
        rw [playMorseGo_dash] at he
        rcases List.mem_cons.1 he with rfl | he
        · exact Or.inr rfl
        · exact ih _ e he
      · by_cases h3 : ch = ' '
        · subst h3
          rw [playMorseGo_space] at he
          exact ih _ e he
        · by_cases h4 : ch = '/'
          · subst h4
            rw [playMorseGo_slash] at he
            exact ih _ e he
          · rw [playMorseGo_other dd t ch rest h1 h2 h3 h4] at he
            exact ih t e he

/-- C5: for every Morse string and every positive speed, the tone events of
`play_morse` have strictly increasing start offsets, every start offset is
at least the caller-supplied start time, and the loop's clock never
decreases. -/
theorem c5_monotone (wpm : ℚ) (hw : 0 < wpm) (morse : String) (t : ℚ) :
    ((play_morse ⟨1200 / wpm⟩ morse t).Pairwise fun a b =>
      a.start_time < b.start_time) ∧
    (∀ e ∈ play_morse ⟨1200 / wpm⟩ morse t, t ≤ e.start_time) ∧
    t ≤ play_morse_clock ⟨1200 / wpm⟩ morse t := by
  have hdd : 0 < (1200 : ℚ) / wpm := by positivity
  obtain ⟨hs, hp, hc⟩ := playMorseGo_props (1200 / wpm) hdd morse.data t
  exact ⟨hp, hs, hc⟩

/-- C5, witness at `wpm = 20`, `"... --- ..."`, start time 0. -/
theorem c5_witness :
    (0 : ℚ) ≤ play_morse_clock ⟨1200 / 20⟩ "... --- ..." 0 :=
  (c5_monotone 20 (by norm_num) "... --- ..." 0).2.2

/-- C6, counterexample: at `wpm = 20` the `(startOffset, duration)` pair
handed to `play_tone` for the dash of `".-"` is `(3/25, 180)`: the offset
is `0.12` — seconds, not the millisecond unit of the durations `60` and
`180` — so it does not exceed the dot's offset `0` by `120` in that
unit. -/
theorem c6_counterexample :
    play_morse ⟨60⟩ ".-" 0 = [⟨0, 60⟩, ⟨3 / 25, 180⟩] ∧
    ¬((3 : ℚ) / 25 - 0 = 120) := by
  constructor
  · show (playMorseGo 60 ['.', '-'] 0).1 = _
    simp only [playMorseGo_dot, playMorseGo_dash, playMorseGo_nil]
    norm_num
  · norm_num

/-- C6, amended: for a positive speed and a non-negative start time every
pair handed to `play_tone` has both components non-negative, but the offset
is in the clock's seconds while the duration is in milliseconds;
`play_tone` reconciles the two units (the oscillator stops at
`start + duration / 1000` seconds), so expressed uniformly in milliseconds
the realized schedule of `".-"` at `wpm = 20` is `(0, 60)` then
`(120, 180)`: the dash starts exactly `120` ms after the dot. -/
theorem c6_nonneg_mixed_units (wpm t : ℚ) (hw : 0 < wpm) (ht : 0 ≤ t)
    (morse : String) :
    (∀ e ∈ play_morse ⟨1200 / wpm⟩ morse t,
      0 ≤ e.start_time ∧ 0 ≤ e.duration) ∧
    eventsMs ⟨60⟩ ".-" 0 = [(0, 60), (120, 180)] := by
  have hdd : 0 < (1200 : ℚ) / wpm := by positivity
  constructor
  · intro e he
    obtain ⟨hs, -, -⟩ := playMorseGo_props (1200 / wpm) hdd morse.data t
    refine ⟨ht.trans (hs e he), ?_⟩
    rcases playMorseGo_durations (1200 / wpm) morse.data t e he with h | h
    · rw [h]; exact hdd.le
    · rw [h]; nlinarith
  · show List.map toneIntervalMs (playMorseGo 60 ['.', '-'] 0).1 = _
    simp only [playMorseGo_dot, playMorseGo_dash, playMorseGo_nil]
    norm_num [toneIntervalMs, play_tone]

/-- C6, witness for the amended claim at `wpm = 20`, start time 0. -/
theorem c6_witness :
    eventsMs ⟨60⟩ ".-" 0 = [(0, 60), (120, 180)] :=
  (c6_nonneg_mixed_units 20 0 (by norm_num) (le_refl 0) ".-").2

/-- Filtering a list to the elements on which an option-valued function
fires does not change its `filterMap`. -/
theorem filterMap_filter_isSome {α β : Type} (g : α → Option β) (l : List α) :
    (l.filter fun a => (g a).isSome).filterMap g = l.filterMap g := by
  induction l with
  | nil => rfl
  | cons a l ih =>
    cases hg : g a with
    | none => simp [List.filter_cons, List.filterMap_cons, hg, ih]
    | some b => simp [List.filter_cons, List.filterMap_cons, hg, ih]

/-- C7: `encode` upper-cases its input and maps each character through the
table: `"HELLO!#WORLD"` encodes with `'!'` kept and `'#'` leaving no
trace (the result is the encoding of `"HELLO!WORLD"`); lower case encodes
like upper case; deleting every unmappable character from the input does
not change the result; the codes are joined with single spaces (visible in
the first conjunct); and the output is empty for the empty input and for
any input without a mappable character. -/
theorem c7_encode_drops_unmapped :
    encode "HELLO!#WORLD" = ".... . .-.. .-.. --- -.-.-- .-- --- .-. .-.. -.." ∧
    encode "HELLO!#WORLD" = encode "HELLO!WORLD" ∧
    encode "hello!#world" = encode "HELLO!#WORLD" ∧
    encode "" = "" ∧
    (∀ text : String,
      encode text =
        encode ⟨text.data.filter fun c => (encode_map_get (Char.toUpper c)).isSome⟩) ∧
    (∀ text : String,
      (∀ c ∈ (to_uppercase text).data, encode_map_get c = none) →
        encode text = "") := by
  refine ⟨by decide, by decide, by decide, by decide, ?_, ?_⟩
  · intro text
    show String.intercalate " " _ = String.intercalate " " _
    congr 1
    show ((text.data.map Char.toUpper).filterMap encode_map_get) =
      (((text.data.filter fun c => (encode_map_get (Char.toUpper c)).isSome).map
        Char.toUpper).filterMap encode_map_get)
    rw [List.filterMap_map, List.filterMap_map]
    exact (filterMap_filter_isSome (encode_map_get ∘ Char.toUpper) text.data).symm
  · intro text h
    have hnil : (to_uppercase text).data.filterMap encode_map_get = [] :=
      List.filterMap_eq_nil_iff.2 h
    show String.intercalate " " ((to_uppercase text).data.filterMap encode_map_get) = ""
    rw [hnil]
    rfl

/-- C7, witness for the no-mappable-character clause at `"###"`. -/
theorem c7_witness : encode "###" = "" :=
  c7_encode_drops_unmapped.2.2.2.2.2 "###" (by decide)

/-- C8: `decode` splits its input on single space characters, maps each
token through the table, silently drops tokens with no mapping and
concatenates the decoded characters with no separator: `"... --- ..."`
decodes to `"SOS"`; a malformed token (`"..x"`) and a lexically valid but
unmapped token (`"........."`) are dropped without any error; consecutive
spaces yield empty tokens that are likewise dropped; and every output
character is the table image of one of the input's space-delimited
tokens. -/
theorem c8_decode_drops_unmapped :
    decode "... --- ..." = "SOS" ∧
    decode "... ..x --- ........." = "SO" ∧
    decode "...  ---" = "SO" ∧
    (∀ morse : String, ∀ c ∈ (decode morse).data,
      ∃ tok ∈ split_space morse, ∃ p ∈ pairs, p.2 = tok ∧ p.1 = c) := by
  refine ⟨by decide, by decide, by decide, ?_⟩
  intro morse c hc
  have hc' : c ∈ (split_space morse).filterMap decode_map_get := hc
  obtain ⟨tok, htok, hsome⟩ := List.mem_filterMap.1 hc'
  refine ⟨tok, htok, ?_⟩
  obtain ⟨p, hfind, hp1⟩ := Option.map_eq_some'.1 hsome
  refine ⟨p, List.mem_of_find?_eq_some hfind, ?_, hp1⟩
  have := List.find?_some hfind
  exact eq_of_beq this

/-- C8, witness: the `'S'` of `decode "... ---"` comes from the token
`"..."` of the input. -/
theorem c8_witness :
    ∃ tok ∈ split_space "... ---", ∃ p ∈ pairs, p.2 = tok ∧ p.1 = 'S' :=
  c8_decode_drops_unmapped.2.2.2 "... ---" 'S' (by decide)

/-- A property holds on every character of every token of
`splitWhitespaceAux cs acc` exactly when it holds on the pending run `acc`
and on every non-whitespace character of `cs`. -/
theorem splitWhitespaceAux_forall (P : Char → Prop) :
    ∀ (cs acc : List Char),
      (∀ tok ∈ splitWhitespaceAux cs acc, ∀ c ∈ tok, P c) ↔
        ((∀ c ∈ acc, P c) ∧ ∀ c ∈ cs, ¬c.isWhitespace → P c) := by
  intro cs
  induction cs with
  | nil =>
    intro acc
    cases acc with
    | nil =>
      constructor
      · intro _
        exact ⟨fun x hx => absurd hx (List.not_mem_nil x),
          fun x hx _ => absurd hx (List.not_mem_nil x)⟩
      · intro _ tok htok
        exact absurd htok (List.not_mem_nil tok)
    | cons a as =>
      constructor
      · intro h
        refine ⟨fun x hx =>
          h (a :: as).reverse (List.mem_singleton_self _) x (List.mem_reverse.2 hx),
          fun x hx _ => absurd hx (List.not_mem_nil x)⟩
      · rintro ⟨hacc, -⟩ tok htok x hx
        rcases List.mem_singleton.1 htok with rfl
        exact hacc x (List.mem_reverse.1 hx)
  | cons c cs ih =>
    intro acc
    by_cases hw : c.isWhitespace
    · cases acc with
      | nil =>
        have hstep : splitWhitespaceAux (c :: cs) [] = splitWhitespaceAux cs [] := by
          simp [splitWhitespaceAux, hw]
        rw [hstep, ih []]
        constructor
        · rintro ⟨-, hcs⟩
          refine ⟨fun x hx => absurd hx (List.not_mem_nil x), ?_⟩
          intro x hx hxw
          rcases List.mem_cons.1 hx with rfl | hx
          · exact absurd hw hxw
          · exact hcs x hx hxw
        · rintro ⟨-, hccs⟩
          exact ⟨fun x hx => absurd hx (List.not_mem_nil x),
            fun x hx hxw => hccs x (List.mem_cons_of_mem c hx) hxw⟩
      | cons a as =>
        have hstep : splitWhitespaceAux (c :: cs) (a :: as) =
            (a :: as).reverse :: splitWhitespaceAux cs [] := by
          simp [splitWhitespaceAux, hw]
        rw [hstep]
        constructor
        · intro h
          have hacc : ∀ x ∈ a :: as, P x := fun x hx =>
            h (a :: as).reverse (List.mem_cons_self _ _) x (List.mem_reverse.2 hx)
          have hrest :=
            ((ih []).1 fun tok htok => h tok (List.mem_cons_of_mem _ htok)).2
          refine ⟨hacc, ?_⟩
          intro x hx hxw
          rcases List.mem_cons.1 hx with rfl | hx
          · exact absurd hw hxw
          · exact hrest x hx hxw
        · rintro ⟨hacc, hccs⟩ tok htok
          rcases List.mem_cons.1 htok with rfl | htok
          · exact fun x hx => hacc x (List.mem_reverse.1 hx)
          · exact ((ih []).2 ⟨fun x hx => absurd hx (List.not_mem_nil x),
              fun x hx hxw => hccs x (List.mem_cons_of_mem c hx) hxw⟩) tok htok
    · have hstep : splitWhitespaceAux (c :: cs) acc = splitWhitespaceAux cs (c :: acc) := by
        simp [splitWhitespaceAux, hw]
      rw [hstep, ih (c :: acc)]
      constructor
      · rintro ⟨hcacc, hcs⟩
        refine ⟨fun x hx => hcacc x (List.mem_cons_of_mem c hx), ?_⟩
        intro x hx hxw
        rcases List.mem_cons.1 hx with rfl | hx
        · exact hcacc x (List.mem_cons_self x acc)
        · exact hcs x hx hxw
      · rintro ⟨hacc, hccs⟩
        refine ⟨?_, fun x hx hxw => hccs x (List.mem_cons_of_mem c hx) hxw⟩
        intro x hx
        rcases List.mem_cons.1 hx with rfl | hx
        · exact hccs x (List.mem_cons_self x cs) hw
        · exact hacc x hx

/-- `validate_morse` is a purely lexical check: it is true exactly when
every non-whitespace character of the input is a dot, a dash or a slash. -/
theorem validate_morse_iff (morse : String) :
    validate_morse morse = true ↔
      ∀ c ∈ morse.data, ¬c.isWhitespace → (c = '.' ∨ c = '-' ∨ c = '/') := by
  unfold validate_morse split_whitespace
  rw [List.all_eq_true]
  have step :
      (∀ code ∈ (splitWhitespaceAux morse.data []).map (fun l => (⟨l⟩ : String)),
        (code.data.all fun c => c == '.' || c == '-' || c == '/') = true) ↔
      ∀ tok ∈ splitWhitespaceAux morse.data [], ∀ c ∈ tok,
        (c = '.' ∨ c = '-' ∨ c = '/') := by
    rw [List.forall_mem_map]
    constructor
    · intro h tok htok c hc
      have := List.all_eq_true.1 (h tok htok) c hc
      simp only [Bool.or_eq_true, beq_iff_eq] at this
      tauto
    · intro h tok htok
      rw [List.all_eq_true]
      intro c hc
      have := h tok htok c hc
      simp only [Bool.or_eq_true, beq_iff_eq]
      tauto
  rw [step, splitWhitespaceAux_forall (fun c => c = '.' ∨ c = '-' ∨ c = '/')]
  simp

/-- C9, counterexample: the token `"---"` of `"--- ---"` is not
semantically unmapped — it decodes to `'O'`, and `decode "--- ---"` drops
nothing, yielding `"OO"`. -/
theorem c9_counterexample :
    decode_map_get "---" = some 'O' ∧ decode "--- ---" = "OO" := by
  exact ⟨by decide, by decide⟩

/-- C9, amended: `validate_morse` is true iff every whitespace-delimited
token — equivalently, every non-whitespace character — consists solely of
dots, dashes and slashes; the check is purely lexical, so the lexically
valid `"--- ---"` validates (its tokens happen to be semantically mapped
and decode to `"OO"`), and a lexically valid but semantically unmapped
token such as `"......"` also validates even though `decode` drops it. -/
theorem c9_validate_lexical (morse : String) :
    (validate_morse morse = true ↔
      ∀ c ∈ morse.data, ¬c.isWhitespace → (c = '.' ∨ c = '-' ∨ c = '/')) ∧
    validate_morse "--- ---" = true ∧
    validate_morse "......" = true ∧
    decode_map_get "......" = none ∧
    decode "......" = "" :=
  ⟨validate_morse_iff morse, by decide, by decide, by decide, by decide⟩

/-- C9, witness at `"--- ---"`. -/
theorem c9_witness : validate_morse "--- ---" = true :=
  (c9_validate_lexical "--- ---").2.1

theorem string_data_append (a b : String) : (a ++ b).data = a.data ++ b.data := rfl

/-- The accumulator form of `String.intercalate` appends, for each further
string, the separator and that string. -/
theorem intercalate_go_data (s : String) :
    ∀ (as : List String) (acc : String),
      (String.intercalate.go acc s as).data =
        acc.data ++ (as.map fun a => s.data ++ a.data).flatten := by
  intro as
  induction as with
  | nil =>
    intro acc
    simp [String.intercalate.go]
  | cons a as ih =>
    intro acc
    rw [show String.intercalate.go acc s (a :: as) =
      String.intercalate.go (acc ++ s ++ a) s as from rfl, ih]
    simp [string_data_append]

theorem joinSep_cons_eq (x : List Char) (M : List (List Char)) :
    joinSep (x :: M) = x ++ (M.map fun m => ' ' :: m).flatten := by
  induction M generalizing x with
  | nil => simp [joinSep]
  | cons y t ih =>
    rw [show joinSep (x :: y :: t) = x ++ ' ' :: joinSep (y :: t) from rfl, ih y]
    simp

/-- `String.intercalate " "` computes `joinSep` on the character lists. -/
theorem intercalate_data (L : List String) :
    (String.intercalate " " L).data = joinSep (L.map String.data) := by
  cases L with
  | nil => rfl
  | cons a as =>
    rw [show String.intercalate " " (a :: as) = String.intercalate.go a " " as from rfl,
      intercalate_go_data " " as a, List.map_cons,
      joinSep_cons_eq a.data (as.map String.data), List.map_map]
    rfl

theorem mem_of_getLast_opt {l : List Char} {a : Char} (h : a ∈ l.getLast?) : a ∈ l := by
  obtain ⟨hne, rfl⟩ := List.mem_getLast?_eq_getLast h
  exact List.getLast_mem hne

/-- A run without spaces has no two adjacent spaces. -/
theorem chain_no_double_space_of_no_space (l : List Char)
    (h : ∀ c ∈ l, c ≠ ' ') :
    l.Chain' (fun a b => ¬(a = ' ' ∧ b = ' ')) := by
  induction l with
  | nil => exact List.chain'_nil
  | cons a t ih =>
    rw [List.chain'_cons']
    exact ⟨fun b _ hab => h a (List.mem_cons_self a t) hab.1,
      ih fun c hc => h c (List.mem_cons_of_mem a hc)⟩

theorem joinSep_ne_nil :
    ∀ L : List (List Char), L ≠ [] → (∀ l ∈ L, l ≠ []) → joinSep L ≠ [] := by
  intro L hL h
  cases L with
  | nil => exact absurd rfl hL
  | cons x t =>
    cases t with
    | nil => exact h x (List.mem_cons_self x [])
    | cons y u =>
      show x ++ ' ' :: joinSep (y :: u) ≠ []
      simp

/-- Joining non-empty, space-free tokens over `{., -, /}` with single
spaces yields a list whose characters stay in `{., -, /, ' '}`, that
neither starts nor ends with a space, and that has no two adjacent
spaces. -/
theorem joinSep_props :
    ∀ L : List (List Char),
      (∀ l ∈ L, l ≠ [] ∧ ∀ c ∈ l, c = '.' ∨ c = '-' ∨ c = '/') →
      (∀ c ∈ joinSep L, c = '.' ∨ c = '-' ∨ c = '/' ∨ c = ' ') ∧
      (∀ b ∈ (joinSep L).head?, b ≠ ' ') ∧
      (∀ b ∈ (joinSep L).getLast?, b ≠ ' ') ∧
      (joinSep L).Chain' (fun a b => ¬(a = ' ' ∧ b = ' ')) := by
  intro L
  induction L with
  | nil =>
    intro _
    refine ⟨fun c hc => absurd hc (List.not_mem_nil c), ?_, ?_, List.chain'_nil⟩
    · intro b hb
      simp [joinSep] at hb
    · intro b hb
      simp [joinSep] at hb
  | cons x t ih =>
    intro H
    have hx := H x (List.mem_cons_self x t)
    have hxgood : ∀ c ∈ x, c ≠ ' ' := by
      intro c hc
      rcases hx.2 c hc with rfl | rfl | rfl <;> decide
    cases t with
    | nil =>
      refine ⟨?_, ?_, ?_, chain_no_double_space_of_no_space x hxgood⟩
      · intro c hc
        rcases hx.2 c hc with h | h | h
        exacts [Or.inl h, Or.inr (Or.inl h), Or.inr (Or.inr (Or.inl h))]
      · intro b hb
        exact hxgood b (List.mem_of_mem_head? hb)
      · intro b hb
        exact hxgood b (mem_of_getLast_opt hb)
    | cons y u =>
      have Ht : ∀ l ∈ y :: u, l ≠ [] ∧ ∀ c ∈ l, c = '.' ∨ c = '-' ∨ c = '/' :=
        fun l hl => H l (List.mem_cons_of_mem x hl)
      obtain ⟨ihmem, ihhead, ihlast, ihchain⟩ := ih Ht
      have hjne : joinSep (y :: u) ≠ [] :=
        joinSep_ne_nil (y :: u) (List.cons_ne_nil y u) fun l hl => (Ht l hl).1
      have heq : joinSep (x :: y :: u) = x ++ ' ' :: joinSep (y :: u) := rfl
      refine ⟨?_, ?_, ?_, ?_⟩
      · intro c hc
        rw [heq] at hc
        rcases List.mem_append.1 hc with hc | hc
        · rcases hx.2 c hc with h | h | h
          exacts [Or.inl h, Or.inr (Or.inl h), Or.inr (Or.inr (Or.inl h))]
        · rcases List.mem_cons.1 hc with rfl | hc
          · exact Or.inr (Or.inr (Or.inr rfl))
          · exact ihmem c hc
      · intro b hb
        rw [heq] at hb
        obtain ⟨a, x', rfl⟩ : ∃ a x', x = a :: x' := by
          cases x with
          | nil => exact absurd rfl hx.1
          | cons a x' => exact ⟨a, x', rfl⟩
        rw [List.cons_append, List.head?_cons, Option.mem_some_iff] at hb
        exact hb ▸ hxgood a (List.mem_cons_self a x')
      · intro b hb
        rw [heq] at hb
        obtain ⟨b', hb'⟩ := Option.isSome_iff_exists.1 (List.getLast?_isSome.2 hjne)
        have hlast' : (' ' :: joinSep (y :: u)).getLast? = some b' := by
          obtain ⟨c0, j', hj'⟩ : ∃ c0 j', joinSep (y :: u) = c0 :: j' := by
            cases hjs : joinSep (y :: u) with
            | nil => exact absurd hjs hjne
            | cons c0 j' => exact ⟨c0, j', rfl⟩
          rw [hj', List.getLast?_cons_cons, ← hj', hb']
        rw [List.getLast?_append, hlast', Option.or_some, Option.mem_some_iff] at hb
        rw [← hb]
        exact ihlast b' (Option.mem_def.2 hb')
      · rw [heq, List.chain'_append]
        refine ⟨chain_no_double_space_of_no_space x hxgood, ?_, ?_⟩
        · rw [List.chain'_cons']
          exact ⟨fun b hb hab => ihhead b hb hab.2, ihchain⟩
        · intro a ha b hb
          rw [List.head?_cons, Option.mem_some_iff] at hb
          intro hab
          exact hxgood a (mem_of_getLast_opt ha) hab.1

/-- Every code `encode` emits is a code of the table, hence non-empty and
made of dots and dashes (or the lone slash). -/
theorem encode_codes_good (text : String) :
    ∀ l ∈ ((to_uppercase text).data.filterMap encode_map_get).map String.data,
      l ≠ [] ∧ ∀ c ∈ l, c = '.' ∨ c = '-' ∨ c = '/' := by
  intro l hl
  obtain ⟨code, hcode, rfl⟩ := List.mem_map.1 hl
  obtain ⟨c, -, hsome⟩ := List.mem_filterMap.1 hcode
  obtain ⟨p, hfind, hp2⟩ := Option.map_eq_some'.1 hsome
  have hmem : code ∈ pairs.map Prod.snd :=
    hp2 ▸ List.mem_map_of_mem Prod.snd (List.mem_of_find?_eq_some hfind)
  exact (by decide :
    ∀ s ∈ pairs.map Prod.snd, s.data ≠ [] ∧ ∀ c ∈ s.data,
      c = '.' ∨ c = '-' ∨ c = '/') code hmem

/-- The characters of an `encode` result. -/
theorem encode_data (text : String) :
    (encode text).data =
      joinSep (((to_uppercase text).data.filterMap encode_map_get).map String.data) :=
  intercalate_data _

/-- C10: the output of `encode` is always lexically valid Morse — it
passes `validate_morse`, contains only dots, dashes, slashes and spaces,
does not start or end with a space, and never has two adjacent spaces
(hence no empty tokens). -/
theorem c10_encode_validates (s : String) :
    validate_morse (encode s) = true ∧
    (∀ c ∈ (encode s).data, c = '.' ∨ c = '-' ∨ c = '/' ∨ c = ' ') ∧
    (∀ b ∈ (encode s).data.head?, b ≠ ' ') ∧
    (∀ b ∈ (encode s).data.getLast?, b ≠ ' ') ∧
    (encode s).data.Chain' (fun a b => ¬(a = ' ' ∧ b = ' ')) := by
  have hdata := encode_data s
  obtain ⟨hmem, hhead, hlast, hchain⟩ := joinSep_props _ (encode_codes_good s)
  rw [← hdata] at hmem hhead hlast hchain
  refine ⟨?_, hmem, hhead, hlast, hchain⟩
  rw [validate_morse_iff]
  intro c hc hcw
  rcases hmem c hc with h | h | h | h
  · exact Or.inl h
  · exact Or.inr (Or.inl h)
  · exact Or.inr (Or.inr h)
  · subst h
    exact absurd (by decide : (' ').isWhitespace = true) hcw

/-- C10, witness at `"SOS"`. -/
theorem c10_witness : validate_morse (encode "SOS") = true :=
  (c10_encode_validates "SOS").1

end Morsewave
